import Mathlib

set_option autoImplicit false
set_option maxHeartbeats 1000000

/- Shallow embedding of the rust_l_star repository: an Angluin L* learner over
string-labelled DFAs, translated from src/lstar.rs, src/lstar/dfa.rs and
src/lstar/table.rs.  Machine strings become Lean `String`s, `Vec<Symbol>`
becomes `List Symbol`, `HashMap` lookups become association-list lookups in
which the last insertion for a key wins, Rust `Result` return values become
`RunResult`, and a panic (an `unwrap` or `assert!` failure) is modelled as
`Option.none` of the surrounding computation. -/

namespace LStar

abbrev Symbol := String

abbrev State := String

abbrev Word := List Symbol

/-- The literal one-element word `vec!["ε".to_string()]` that the source code
uses as its sentinel for the empty word. -/
def epsWord : Word := ["ε"]

/-- Embedding of `concat` from src/lstar.rs: word concatenation with special
cases that treat the sentinel `["ε"]` as the empty word. -/
def concat (a b : Word) : Word :=
  if a = epsWord ∧ b = epsWord then epsWord
  else if a = epsWord then b
  else if b = epsWord then a
  else a ++ b

/-- The value returned by `DFA::run` (`Result<bool, String>` in the source). -/
inductive RunResult where
  | ok (b : Bool)
  | err (msg : String)
deriving DecidableEq

/-- Embedding of the `DFA` struct from src/lstar/dfa.rs.  The transition
`HashMap` is kept as the list of inserted entries; lookups take the last
matching entry, mirroring `HashMap::insert` overwriting earlier entries. -/
structure DFA where
  states : List State
  alphabet : List Symbol
  initState : State
  transitions : List ((State × Symbol) × State)
  finalStates : List State
deriving DecidableEq

/-- Lookup in the transition `HashMap`: the last inserted entry for a key
wins, as `HashMap::insert` overwrites previous values. -/
def lookupLast (k : State × Symbol) : List ((State × Symbol) × State) → Option State
  | [] => none
  | e :: rest =>
    match lookupLast k rest with
    | some v => some v
    | none => if e.1 = k then some e.2 else none

def DFA.getTrans (d : DFA) (s : State) (a : Symbol) : Option State :=
  lookupLast (s, a) d.transitions

/-- Embedding of `DFA::new`: the state set is derived from the deduplicated
transition map (sources and looked-up targets) plus the initial state, the
alphabet from the transition keys, and the accepting states are stored as a
set (modelled by `dedup`). -/
def DFA.new (trans : List ((State × Symbol) × State)) (init : State)
    (finals : List State) : DFA :=
  let keys := (trans.map (fun e => e.1)).dedup
  { states := ((keys.map (fun k => k.1)) ++
      (keys.filterMap (fun k => lookupLast k trans)) ++ [init]).dedup
    alphabet := (keys.map (fun k => k.2)).dedup
    initState := init
    transitions := trans
    finalStates := finals.dedup }

/-- The simulation loop of `DFA::run` from src/lstar/dfa.rs, starting at an
arbitrary state.  `none` models the panic of the `unwrap` on the transition
lookup; `some (RunResult.err m)` models the early `Err` return on a symbol
outside the alphabet; the literal symbol `"ε"` is skipped. -/
def runFrom (d : DFA) : State → List Symbol → Option RunResult
  | s, [] => some (RunResult.ok (d.finalStates.contains s))
  | s, i :: rest =>
    if i ∉ d.alphabet ∧ i ≠ "ε" then
      some (RunResult.err ("Symbol " ++ i ++ " not in alphabet"))
    else if i = "ε" then runFrom d s rest
    else
      match d.getTrans s i with
      | some s2 => runFrom d s2 rest
      | none => none

/-- Embedding of `DFA::run`: simulation from the initial state. -/
def DFA.run (d : DFA) (w : Word) : Option RunResult := runFrom d d.initState w

/-- Removal of every occurrence of the literal symbol `"ε"` from a word. -/
def filterEps : List Symbol → List Symbol
  | [] => []
  | i :: rest => if i = "ε" then filterEps rest else i :: filterEps rest

/-- Spec-side simulation: fold the transition function over a word (the
default branch of `getD` is never used on well-formed inputs). -/
def simulate (d : DFA) : State → List Symbol → State
  | s, [] => s
  | s, a :: rest => simulate d ((d.getTrans s a).getD s) rest

/-- A transition-total DFA: the initial state belongs to the state set, every
transition target belongs to the state set, and every (state, symbol) pair
over the declared alphabet has a transition. -/
def WellFormedDFA (d : DFA) : Prop :=
  d.initState ∈ d.states ∧
  (∀ e ∈ d.transitions, e.2 ∈ d.states) ∧
  (∀ s ∈ d.states, ∀ a ∈ d.alphabet, a ≠ "ε" → (d.getTrans s a).isSome)

/-- Embedding of the `ObservationTable` struct from src/lstar/table.rs.  The
`cells` HashMap is modelled as a function to `Option Bool`. -/
structure ObservationTable where
  rows : List Word
  columns : List Word
  cells : Word × Word → Option Bool

/-- Insertion into the cells map (`HashMap::insert`). -/
def updateCells (f : Word × Word → Option Bool) (k : Word × Word) (v : Bool) :
    Word × Word → Option Bool :=
  fun x => if x = k then some v else f x

/-- Embedding of `ObservationTable::new`: one row and one column, both the
literal sentinel word `["ε"]`, and no filled cells. -/
def ObservationTable.new : ObservationTable :=
  { rows := [epsWord], columns := [epsWord], cells := fun _ => none }

def ObservationTable.get_cell (t : ObservationTable) (pre suf : Word) : Option Bool :=
  t.cells (pre, suf)

/-- Helper loop of `ObservationTable::get_value`: read the row's cells across
the given column list, failing on the first unfilled cell. -/
def getValueAux (t : ObservationTable) (pre : Word) : List Word → Option (List Bool)
  | [] => some []
  | c :: rest =>
    match t.cells (pre, c) with
    | some b => (getValueAux t pre rest).map (fun v => b :: v)
    | none => none

/-- Embedding of `ObservationTable::get_value`: a row's signature across the
current columns; `none` models the `Err` on an unfilled cell. -/
def ObservationTable.get_value (t : ObservationTable) (pre : Word) : Option (List Bool) :=
  getValueAux t pre t.columns

/-- Embedding of `ObservationTable::vecbool_to_state`: encode a boolean
signature as a string of '1'/'0' characters. -/
def vecbool_to_state (vb : List Bool) : State :=
  String.mk (vb.map (fun b => if b then '1' else '0'))

/-- Embedding of `ObservationTable::get_value_as_state`. -/
def ObservationTable.get_value_as_state (t : ObservationTable) (pre : Word) : Option State :=
  (t.get_value pre).map vecbool_to_state

/-- Embedding of `ObservationTable::fill_cell`. -/
def ObservationTable.fill_cell (t : ObservationTable) (r c : Word) (v : Bool) :
    ObservationTable :=
  { t with cells := updateCells t.cells (r, c) v }

/-- Embedding of `ObservationTable::is_filled`. -/
def ObservationTable.is_filled (t : ObservationTable) (r c : Word) : Bool :=
  (t.cells (r, c)).isSome

/-- Embedding of `ObservationTable::add_rows`: appends the prefix unless it is
already present. -/
def ObservationTable.add_rows (t : ObservationTable) (pre : Word) : ObservationTable :=
  if pre ∈ t.rows then t else { t with rows := t.rows ++ [pre] }

/-- Embedding of `ObservationTable::add_columns`: appends the suffix unless it
is already present. -/
def ObservationTable.add_columns (t : ObservationTable) (suf : Word) : ObservationTable :=
  if suf ∈ t.columns then t else { t with columns := t.columns ++ [suf] }

/-- Helper loop of `ObservationTable::get_states`. -/
def getStatesAux (t : ObservationTable) : List Word → Option (List State)
  | [] => some []
  | p :: rest =>
    match t.get_value p with
    | some v => (getStatesAux t rest).map (fun l => vecbool_to_state v :: l)
    | none => none

/-- Embedding of `ObservationTable::get_states`: the canonical state of every
row, failing if any row is incomplete. -/
def ObservationTable.get_states (t : ObservationTable) : Option (List State) :=
  getStatesAux t t.rows

/-- Embedding of `membership_query` from src/lstar.rs. -/
def membership_query (target : DFA) (input : Word) : Option RunResult :=
  target.run input

/-- Innermost loop of the scan phase of `fill`: for one (row, column) pair,
iterate over the alphabet, recording the unfilled (row, column) cell and the
unfilled (row·a, column) boundary cell for each symbol `a`. -/
def scanA (t : ObservationTable) (row col : Word) : List Symbol → List (Word × Word)
  | [] => []
  | a :: rest =>
    ((if t.is_filled row col then [] else [(row, col)]) ++
      (if t.is_filled (concat row [a]) col then [] else [(concat row [a], col)])) ++
    scanA t row col rest

/-- Column loop of the scan phase of `fill`. -/
def scanC (t : ObservationTable) (row : Word) (alph : List Symbol) :
    List Word → List (Word × Word)
  | [] => []
  | c :: rest => scanA t row c alph ++ scanC t row alph rest

/-- Row loop of the scan phase of `fill`. -/
def scanR (t : ObservationTable) (alph : List Symbol) : List Word → List (Word × Word)
  | [] => []
  | r :: rest => scanC t r alph t.columns ++ scanR t alph rest

/-- The whole scan phase of `fill` from src/lstar.rs: the list of unfilled
cells collected over all rows, columns and alphabet symbols (duplicates
included, in source iteration order). -/
def fillScan (t : ObservationTable) (alph : List Symbol) : List (Word × Word) :=
  scanR t alph t.rows

/-- Second phase of `fill`: answer each collected cell with one membership
query.  Returns the updated table together with the list of queried words;
`none` models the panic of `unwrap` on a failing membership query. -/
def fillGo (target : DFA) :
    List (Word × Word) → ObservationTable → List Word → Option (ObservationTable × List Word)
  | [], t, qs => some (t, qs)
  | (r, c) :: rest, t, qs =>
    match membership_query target (concat r c) with
    | some (RunResult.ok b) => fillGo target rest (t.fill_cell r c b) (qs ++ [concat r c])
    | _ => none

/-- Embedding of `fill` from src/lstar.rs, instrumented with the list of
issued membership queries. -/
def fill (t : ObservationTable) (target : DFA) : Option (ObservationTable × List Word) :=
  fillGo target (fillScan t target.alphabet) t []

/-- The table is saturated: every (row, column) cell and every boundary
(row·a, column) cell that `fill` would scan is already filled. -/
def Saturated (t : ObservationTable) (alph : List Symbol) : Prop :=
  ∀ r ∈ t.rows, ∀ c ∈ t.columns, ∀ a ∈ alph,
    t.is_filled r c ∧ t.is_filled (concat r [a]) c

/-- Outcome of `equivalence_query`, with fuel instrumentation: `counterexample`
and `equivalent` are the two returns of the source function, `panicked` models
a panic inside `DFA::run`, and `fuelOut` marks that the given fuel was spent
before the loop finished. -/
inductive EQResult where
  | counterexample (w : Word)
  | equivalent
  | panicked
  | fuelOut
deriving DecidableEq

/-- One frontier extension of `equivalence_query`: a word shorter than the
length bound is extended by every alphabet symbol in turn. -/
def childWords (alph : List Symbol) (maxLen : Nat) (w : Word) : List Word :=
  if w.length < maxLen then alph.map (fun a => concat w [a]) else []

/-- The queue loop of `equivalence_query` from src/lstar.rs, with explicit
fuel.  Popped words are compared on both automata; on agreement the word's
extensions are pushed at the back of the queue. -/
def eqLoop (t h : DFA) (maxLen : Nat) : Nat → List Word → EQResult
  | _, [] => EQResult.equivalent
  | 0, _ :: _ => EQResult.fuelOut
  | fuel + 1, w :: rest =>
    match t.run w with
    | none => EQResult.panicked
    | some rt =>
      match h.run w with
      | none => EQResult.panicked
      | some rh =>
        if rt = rh then eqLoop t h maxLen fuel (rest ++ childWords t.alphabet maxLen w)
        else EQResult.counterexample w

/-- Embedding of `equivalence_query` from src/lstar.rs: breadth-first queue
search seeded with the sentinel empty word, bounded by
`target.states_size() + 1`. -/
def equivalence_query (fuel : Nat) (t h : DFA) : EQResult :=
  eqLoop t h (t.states.length + 1) fuel [epsWord]

/-- Word-list bind, used to state the staged breadth-first enumeration. -/
def flatMapW (f : Word → List Word) : List Word → List Word
  | [] => []
  | w :: rest => f w ++ flatMapW f rest

/-- Modelled from the spec: the staged breadth-first enumeration — the current
frontier followed by the enumeration of the next frontier, for the given
number of stages. -/
def enumFrom (c : Word → List Word) : Nat → List Word → List Word
  | 0, q => q
  | d + 1, q => q ++ enumFrom c d (flatMapW c q)

/-- The frontier after `d` extension rounds. -/
def iterE (c : Word → List Word) : Nat → List Word → List Word
  | 0, q => q
  | d + 1, q => iterE c d (flatMapW c q)

/-- Modelled from the spec: the complete breadth-first enumeration that
`equivalence_query` performs on a target — frontiers seeded with the empty
word, extended by every alphabet symbol in turn up to the length bound
`states_size + 1`. -/
def bfsEnumeration (t : DFA) : List Word :=
  enumFrom (childWords t.alphabet (t.states.length + 1)) (t.states.length + 2) [epsWord]

/-- Modelled from the spec: scan a word enumeration in order, returning the
first word on which the two automata's run results differ (a panic in either
run propagates), or `equivalent` when the enumeration is exhausted. -/
def scanWords (t h : DFA) : List Word → EQResult
  | [] => EQResult.equivalent
  | w :: rest =>
    match t.run w with
    | none => EQResult.panicked
    | some rt =>
      match h.run w with
      | none => EQResult.panicked
      | some rh => if rt = rh then scanWords t h rest else EQResult.counterexample w

/-- A row's signature with the incomplete-row error defaulted away; under the
filledness hypotheses of the theorems below this equals the signature the
source unwraps. -/
def rowSig (t : ObservationTable) (w : Word) : List Bool :=
  (t.get_value w).getD []

/-- A row's canonical state identifier, the value the source obtains from
`get_value_as_state(..).unwrap()`. -/
def rowState (t : ObservationTable) (w : Word) : State :=
  vecbool_to_state (rowSig t w)

/-- Inner loop of the transition construction of `construct_automaton`: one
row, all alphabet symbols. -/
def buildTransA (t : ObservationTable) (pre : Word) :
    List Symbol → Option (List ((State × Symbol) × State))
  | [] => some []
  | a :: rest =>
    match t.get_value_as_state pre, t.get_value_as_state (concat pre [a]),
        buildTransA t pre rest with
    | some s1, some s2, some l => some (((s1, a), s2) :: l)
    | _, _, _ => none

/-- Outer loop of the transition construction of `construct_automaton`. -/
def buildTrans (t : ObservationTable) (alph : List Symbol) :
    List Word → Option (List ((State × Symbol) × State))
  | [] => some []
  | r :: rest =>
    match buildTransA t r alph, buildTrans t alph rest with
    | some l1, some l2 => some (l1 ++ l2)
    | _, _ => none

/-- The value of the transition list built by `construct_automaton` when every
needed cell is filled: for every row (in order) and every alphabet symbol (in
order), one entry from the row's canonical state to the extension's canonical
state. -/
def transOf (t : ObservationTable) (alph : List Symbol) :
    List Word → List ((State × Symbol) × State)
  | [] => []
  | r :: rest =>
    (alph.map (fun a => ((rowState t r, a), rowState t (concat r [a])))) ++
      transOf t alph rest

/-- The accepting-state filter of `construct_automaton`: keep the canonical
identifiers whose first character is '1'. -/
def finalsFilter : List State → List State
  | [] => []
  | st :: rest =>
    if st.data.head? = some '1' then st :: finalsFilter rest else finalsFilter rest

/-- Embedding of `construct_automaton` from src/lstar.rs.  `none` models the
panics: an `unwrap` on an incomplete table or the `assert!` that the first
column is the sentinel empty word. -/
def construct_automaton (t : ObservationTable) (alph : List Symbol) : Option DFA :=
  match t.get_states with
  | none => none
  | some sts =>
    match t.get_value_as_state epsWord with
    | none => none
    | some init =>
      match buildTrans t alph t.rows with
      | none => none
      | some tl =>
        if t.columns.head? = some epsWord then
          some (DFA.new tl init (finalsFilter sts))
        else none

/-- All needed cells filled: every row cell and every boundary cell over the
current columns and the given alphabet is filled. -/
def Filled (t : ObservationTable) (alph : List Symbol) : Prop :=
  ∀ r ∈ t.rows, ∀ c ∈ t.columns,
    (t.cells (r, c)).isSome ∧ ∀ a ∈ alph, (t.cells (concat r [a], c)).isSome

/-- The table is closed: the signature of every one-symbol row extension
matches the signature of some existing row. -/
def TClosed (t : ObservationTable) (alph : List Symbol) : Prop :=
  ∀ r ∈ t.rows, ∀ a ∈ alph, ∃ r2 ∈ t.rows, t.get_value (concat r [a]) = t.get_value r2

/-- The table is consistent: rows with equal signatures have cellwise-equal
one-symbol extensions across all current columns. -/
def TConsistent (t : ObservationTable) (alph : List Symbol) : Prop :=
  ∀ r1 ∈ t.rows, ∀ r2 ∈ t.rows, t.get_value r1 = t.get_value r2 →
    ∀ a ∈ alph, ∀ c ∈ t.columns,
      t.cells (concat r1 [a], c) = t.cells (concat r2 [a], c)

instance (t : ObservationTable) (alph : List Symbol) : Decidable (Filled t alph) :=
  inferInstanceAs (Decidable (∀ r ∈ t.rows, ∀ c ∈ t.columns,
    (t.cells (r, c)).isSome ∧ ∀ a ∈ alph, (t.cells (concat r [a], c)).isSome))

instance (t : ObservationTable) (alph : List Symbol) : Decidable (TClosed t alph) :=
  inferInstanceAs (Decidable (∀ r ∈ t.rows, ∀ a ∈ alph, ∃ r2 ∈ t.rows,
    t.get_value (concat r [a]) = t.get_value r2))

instance (t : ObservationTable) (alph : List Symbol) : Decidable (TConsistent t alph) :=
  inferInstanceAs (Decidable (∀ r1 ∈ t.rows, ∀ r2 ∈ t.rows, t.get_value r1 = t.get_value r2 →
    ∀ a ∈ alph, ∀ c ∈ t.columns, t.cells (concat r1 [a], c) = t.cells (concat r2 [a], c)))

instance (d : DFA) : Decidable (WellFormedDFA d) :=
  inferInstanceAs (Decidable (d.initState ∈ d.states ∧
    (∀ e ∈ d.transitions, e.2 ∈ d.states) ∧
    (∀ s ∈ d.states, ∀ a ∈ d.alphabet, a ≠ "ε" → (d.getTrans s a).isSome)))

instance (t : ObservationTable) (alph : List Symbol) : Decidable (Saturated t alph) :=
  inferInstanceAs (Decidable (∀ r ∈ t.rows, ∀ c ∈ t.columns, ∀ a ∈ alph,
    t.is_filled r c ∧ t.is_filled (concat r [a]) c))

/-- A total one-state DFA over the alphabet {a} accepting every word; used as
a concrete target below. -/
def tgt6 : DFA :=
  { states := ["q"], alphabet := ["a"], initState := "q",
    transitions := [(("q", "a"), "q")], finalStates := ["q"] }

/-- A DFA with a reachable missing transition: symbol "a" is in the alphabet
but state "q1" has no outgoing transition on it. -/
def exC2 : DFA :=
  { states := ["q0", "q1"], alphabet := ["a"], initState := "q0",
    transitions := [(("q0", "a"), "q1")], finalStates := [] }

/-- A DFA whose declared alphabet contains the literal sentinel symbol "ε"
(as built by `DFA::new` from a transition labelled "ε"). -/
def tgtC4 : DFA :=
  { states := ["q"], alphabet := ["ε"], initState := "q",
    transitions := [(("q", "ε"), "q")], finalStates := [] }

/-- The table produced by filling `ObservationTable.new` against `tgt6`. -/
def t6 : ObservationTable :=
  { rows := [epsWord], columns := [epsWord],
    cells := updateCells (updateCells (fun _ => none) (epsWord, epsWord) true)
      (["a"], epsWord) true }

/-- A filled, vacuously closed and consistent table with two distinct-signature
rows, used with an empty alphabet. -/
def exT5b : ObservationTable :=
  { rows := [epsWord, ["a"]], columns := [epsWord],
    cells := updateCells (updateCells (fun _ => none) (epsWord, epsWord) false)
      (["a"], epsWord) true }

lemma concat_eps_left (w : Word) : concat epsWord w = w := by
  by_cases hw : w = epsWord <;> simp [concat, hw]

lemma concat_eps_right (w : Word) : concat w epsWord = w := by
  by_cases hw : w = epsWord <;> simp [concat, hw]

lemma runFrom_eps_head (d : DFA) (s : State) (rest : List Symbol) :
    runFrom d s ("ε" :: rest) = runFrom d s rest := by
  simp [runFrom]

lemma runFrom_filterEps (d : DFA) :
    ∀ (w : List Symbol) (s : State), runFrom d s w = runFrom d s (filterEps w) := by
  intro w
  induction w with
  | nil => intro s; rfl
  | cons i rest ih =>
    intro s
    by_cases hi : i = "ε"
    · subst hi
      rw [runFrom_eps_head, filterEps, if_pos rfl]
      exact ih s
    · rw [filterEps, if_neg hi]
      by_cases hmem : i ∈ d.alphabet
      · have hc : ¬ (i ∉ d.alphabet ∧ i ≠ "ε") := by tauto
        simp only [runFrom, if_neg hc, if_neg hi]
        cases htr : d.getTrans s i with
        | none => rfl
        | some s2 => exact ih s2
      · have hc : i ∉ d.alphabet ∧ i ≠ "ε" := ⟨hmem, hi⟩
        simp only [runFrom, if_pos hc]

/-- Claim C8 (confirmed): the empty word — represented in the source as the
sentinel `["ε"]` — is a two-sided identity for `concat`. -/
theorem concat_empty_word_identity (w : Word) :
    concat epsWord w = w ∧ concat w epsWord = w :=
  ⟨concat_eps_left w, concat_eps_right w⟩

/-- Claim C10 (confirmed): `DFA::run` skips every occurrence of the literal
symbol `"ε"` without consuming a transition and without raising an unknown
symbol error, so running a word equals running the word with all `"ε"`
occurrences removed — even when `"ε"` is not in the alphabet and occurs in
the middle of the word. -/
theorem run_skips_eps_symbols (d : DFA) (w : Word) :
    d.run w = d.run (filterEps w) :=
  runFrom_filterEps d w d.initState

/-- Claim C1, counterexample: the empty word is not represented as the empty
sequence.  The initial row and column of a fresh observation table are the
one-element word `["ε"]`, which differs from the empty sequence, and `concat`
special-cases this literal word instead of appending it. -/
theorem empty_word_literal_sentinel_counterexample :
    ObservationTable.new.rows = [["ε"]] ∧ ObservationTable.new.columns = [["ε"]] ∧
    (["ε"] : Word) ≠ ([] : Word) ∧
    concat ["a"] ["ε"] = ["a"] ∧ concat ["a"] ["ε"] ≠ ["a", "ε"] := by
  refine ⟨rfl, rfl, by decide, by decide, by decide⟩

/-- Claim C1, amended (corrected): the empty word is represented throughout
the core word operations as the literal one-element sentinel word `["ε"]`,
not as the empty sequence: it is the initial row and column of the table,
`concat` treats it as the two-sided identity, and `DFA::run` skips the
literal symbol `"ε"` during simulation. -/
theorem empty_word_sentinel_representation :
    ObservationTable.new.rows = [epsWord] ∧ ObservationTable.new.columns = [epsWord] ∧
    (∀ w : Word, concat epsWord w = w ∧ concat w epsWord = w) ∧
    (∀ (d : DFA) (s : State) (rest : List Symbol),
      runFrom d s ("ε" :: rest) = runFrom d s rest) :=
  ⟨rfl, rfl, fun w => ⟨concat_eps_left w, concat_eps_right w⟩,
    fun d s rest => runFrom_eps_head d s rest⟩

/-- Claim C2, counterexample: on a reachable (state, symbol) pair with no
defined transition, `DFA::run` does not produce an explicit error result
value — it panics (the `unwrap` on the transition lookup), modelled here by
`none`. -/
theorem run_missing_transition_panic_counterexample :
    "a" ∈ exC2.alphabet ∧ exC2.getTrans "q1" "a" = none ∧
    DFA.run exC2 ["a", "a"] = none := by
  refine ⟨by decide, by decide, by decide⟩

/-- Claim C2, amended (corrected): when simulation reaches a (state, symbol)
pair whose symbol is in the alphabet but has no defined transition, `DFA::run`
panics (the `unwrap` on the lookup, modelled as `none`) rather than returning
an explicit error result value; in particular it does not silently continue
in some default state. -/
theorem run_missing_transition_panics :
    ∀ (d : DFA) (s : State) (i : Symbol) (rest : List Symbol),
      i ∈ d.alphabet → i ≠ "ε" → d.getTrans s i = none →
      runFrom d s (i :: rest) = none := by
  intro d s i rest hmem hne htr
  have hc : ¬ (i ∉ d.alphabet ∧ i ≠ "ε") := by tauto
  simp only [runFrom, if_neg hc, if_neg hne, htr]

/-- Witness for `run_missing_transition_panics` at a concrete input. -/
theorem run_missing_transition_panics_witness :
    "a" ∈ exC2.alphabet ∧ "a" ≠ "ε" ∧ exC2.getTrans "q1" "a" = none ∧
    runFrom exC2 "q1" ["a"] = none :=
  ⟨by decide, by decide, by decide,
    run_missing_transition_panics exC2 "q1" "a" [] (by decide) (by decide) (by decide)⟩

/-- Claim C7 (confirmed): the canonical-state derivation is a function of the
row signature alone — equal signatures give the identical canonical state
identifier, and the derivation is the pure map of `vecbool_to_state` over the
signature, hence stable across repeated calls on an unchanged table. -/
theorem canonical_state_congruence :
    ∀ (t : ObservationTable) (p1 p2 : Word),
      t.get_value p1 = t.get_value p2 →
      t.get_value_as_state p1 = t.get_value_as_state p2 ∧
      t.get_value_as_state p1 = (t.get_value p1).map vecbool_to_state := by
  intro t p1 p2 h
  exact ⟨by simp [ObservationTable.get_value_as_state, h], rfl⟩

/-- Witness for `canonical_state_congruence` on a concrete table with two
distinct prefixes of equal signature. -/
theorem canonical_state_congruence_witness :
    t6.get_value epsWord = t6.get_value ["a"] ∧
    (t6.get_value_as_state epsWord = t6.get_value_as_state ["a"] ∧
      t6.get_value_as_state epsWord = (t6.get_value epsWord).map vecbool_to_state) :=
  ⟨by decide, canonical_state_congruence t6 epsWord ["a"] (by decide)⟩

/-- Claim C9 (confirmed): the observation-table operations preserve the
sentinel-empty-word invariants.  A fresh table's single row and single column
are the empty word; `fill_cell` never touches rows or columns; `add_rows` and
`add_columns` only append (the old lists are prefixes of the new ones), are
no-ops on already-present entries, keep the empty word present, and keep the
empty-word column in the first slot. -/
theorem table_growth_invariants :
    (ObservationTable.new.rows = [epsWord] ∧ ObservationTable.new.columns = [epsWord]) ∧
    (∀ (t : ObservationTable) (r c : Word) (v : Bool),
      (t.fill_cell r c v).rows = t.rows ∧ (t.fill_cell r c v).columns = t.columns) ∧
    (∀ (t : ObservationTable) (p : Word),
      (t.add_rows p).columns = t.columns ∧
      List.IsPrefix t.rows (t.add_rows p).rows ∧
      (p ∈ t.rows → t.add_rows p = t) ∧
      (epsWord ∈ t.rows → epsWord ∈ (t.add_rows p).rows)) ∧
    (∀ (t : ObservationTable) (s : Word),
      (t.add_columns s).rows = t.rows ∧
      List.IsPrefix t.columns (t.add_columns s).columns ∧
      (s ∈ t.columns → t.add_columns s = t) ∧
      (t.columns.head? = some epsWord → (t.add_columns s).columns.head? = some epsWord) ∧
      (epsWord ∈ t.columns → epsWord ∈ (t.add_columns s).columns)) := by
  refine ⟨⟨rfl, rfl⟩, fun t r c v => ⟨rfl, rfl⟩, fun t p => ?_, fun t s => ?_⟩
  · by_cases hp : p ∈ t.rows
    · refine ⟨by simp [ObservationTable.add_rows, hp], ?_, fun _ => by simp [ObservationTable.add_rows, hp], ?_⟩
      · simp only [ObservationTable.add_rows, if_pos hp]
        exact ⟨[], List.append_nil _⟩
      · intro he; simpa [ObservationTable.add_rows, hp] using he
    · refine ⟨by simp [ObservationTable.add_rows, hp], ?_, fun hmem => absurd hmem hp, ?_⟩
      · simp only [ObservationTable.add_rows, if_neg hp]
        exact ⟨[p], rfl⟩
      · intro he
        simp only [ObservationTable.add_rows, if_neg hp]
        exact List.mem_append_left _ he
  · by_cases hs : s ∈ t.columns
    · refine ⟨by simp [ObservationTable.add_columns, hs], ?_,
        fun _ => by simp [ObservationTable.add_columns, hs], ?_, ?_⟩
      · simp only [ObservationTable.add_columns, if_pos hs]
        exact ⟨[], List.append_nil _⟩
      · intro hh; simpa [ObservationTable.add_columns, hs] using hh
      · intro he; simpa [ObservationTable.add_columns, hs] using he
    · refine ⟨by simp [ObservationTable.add_columns, hs], ?_,
        fun hmem => absurd hmem hs, ?_, ?_⟩
      · simp only [ObservationTable.add_columns, if_neg hs]
        exact ⟨[s], rfl⟩
      · intro hh
        simp only [ObservationTable.add_columns, if_neg hs]
        cases hcols : t.columns with
        | nil => rw [hcols] at hh; cases hh
        | cons c0 cs =>
          rw [hcols] at hh
          simpa using hh
      · intro he
        simp only [ObservationTable.add_columns, if_neg hs]
        exact List.mem_append_left _ he

/-- Witness for `table_growth_invariants` at concrete tables. -/
theorem table_growth_invariants_witness :
    ((ObservationTable.new.add_rows ["a"]).add_rows ["a"] = ObservationTable.new.add_rows ["a"]) ∧
    epsWord ∈ (ObservationTable.new.add_rows ["a"]).rows ∧
    ((ObservationTable.new.add_columns ["b"]).columns.head? = some epsWord) :=
  ⟨(table_growth_invariants.2.2.1 (ObservationTable.new.add_rows ["a"]) ["a"]).2.2.1 (by decide),
    (table_growth_invariants.2.2.1 ObservationTable.new ["a"]).2.2.2 (by decide),
    (table_growth_invariants.2.2.2 ObservationTable.new ["b"]).2.2.2.1 (by decide)⟩

lemma is_filled_fill_cell (t : ObservationTable) (r c x y : Word) (v : Bool) :
    t.is_filled x y = true → (t.fill_cell r c v).is_filled x y = true := by
  intro h
  simp only [ObservationTable.is_filled, ObservationTable.fill_cell, updateCells] at *
  by_cases hxy : ((x, y) : Word × Word) = (r, c)
  · simp [hxy]
  · simpa [hxy] using h

lemma fill_cell_self (t : ObservationTable) (r c : Word) (v : Bool) :
    (t.fill_cell r c v).is_filled r c = true := by
  simp [ObservationTable.is_filled, ObservationTable.fill_cell, updateCells]

lemma fillGo_rows (target : DFA) :
    ∀ (l : List (Word × Word)) (t : ObservationTable) (qs : List Word)
      (t1 : ObservationTable) (qs1 : List Word),
      fillGo target l t qs = some (t1, qs1) → t1.rows = t.rows ∧ t1.columns = t.columns := by
  intro l
  induction l with
  | nil =>
    intro t qs t1 qs1 h
    simp only [fillGo, Option.some.injEq, Prod.mk.injEq] at h
    rw [← h.1]
    exact ⟨rfl, rfl⟩
  | cons rc rest ih =>
    intro t qs t1 qs1 h
    obtain ⟨r, c⟩ := rc
    cases hq : membership_query target (concat r c) with
    | none => simp only [fillGo, hq] at h; exact Option.noConfusion h
    | some rr =>
      cases rr with
      | ok b =>
        simp only [fillGo, hq] at h
        exact ih (t.fill_cell r c b) (qs ++ [concat r c]) t1 qs1 h
      | err m => simp only [fillGo, hq] at h; exact Option.noConfusion h

lemma fillGo_mono (target : DFA) :
    ∀ (l : List (Word × Word)) (t : ObservationTable) (qs : List Word)
      (t1 : ObservationTable) (qs1 : List Word) (x y : Word),
      fillGo target l t qs = some (t1, qs1) → t.is_filled x y = true →
      t1.is_filled x y = true := by
  intro l
  induction l with
  | nil =>
    intro t qs t1 qs1 x y h hf
    simp only [fillGo, Option.some.injEq, Prod.mk.injEq] at h
    rw [← h.1]
    exact hf
  | cons rc rest ih =>
    intro t qs t1 qs1 x y h hf
    obtain ⟨r, c⟩ := rc
    cases hq : membership_query target (concat r c) with
    | none => simp only [fillGo, hq] at h; exact Option.noConfusion h
    | some rr =>
      cases rr with
      | ok b =>
        simp only [fillGo, hq] at h
        exact ih _ _ _ _ x y h (is_filled_fill_cell t r c x y b hf)
      | err m => simp only [fillGo, hq] at h; exact Option.noConfusion h

lemma fillGo_fills (target : DFA) :
    ∀ (l : List (Word × Word)) (t : ObservationTable) (qs : List Word)
      (t1 : ObservationTable) (qs1 : List Word) (x y : Word),
      fillGo target l t qs = some (t1, qs1) → (x, y) ∈ l →
      t1.is_filled x y = true := by
  intro l
  induction l with
  | nil => intro t qs t1 qs1 x y h hmem; cases hmem
  | cons rc rest ih =>
    intro t qs t1 qs1 x y h hmem
    obtain ⟨r, c⟩ := rc
    cases hq : membership_query target (concat r c) with
    | none => simp only [fillGo, hq] at h; exact Option.noConfusion h
    | some rr =>
      cases rr with
      | ok b =>
        simp only [fillGo, hq] at h
        rcases List.mem_cons.mp hmem with heq | hrest
        · have hxy : x = r ∧ y = c := Prod.mk.inj heq
          rw [hxy.1, hxy.2]
          exact fillGo_mono target rest _ _ _ _ r c h (fill_cell_self t r c b)
        · exact ih _ _ _ _ x y h hrest
      | err m => simp only [fillGo, hq] at h; exact Option.noConfusion h

lemma mem_scanA_fst (t : ObservationTable) (row col : Word) :
    ∀ (alph : List Symbol), alph ≠ [] → t.is_filled row col = false →
      (row, col) ∈ scanA t row col alph := by
  intro alph halph hf
  cases alph with
  | nil => exact absurd rfl halph
  | cons a rest =>
    simp only [scanA, hf]
    simp

lemma mem_scanA_snd (t : ObservationTable) (row col : Word) :
    ∀ (alph : List Symbol) (a : Symbol), a ∈ alph →
      t.is_filled (concat row [a]) col = false →
      (concat row [a], col) ∈ scanA t row col alph := by
  intro alph
  induction alph with
  | nil => intro a ha; cases ha
  | cons a0 rest ih =>
    intro a ha hf
    rcases List.mem_cons.mp ha with heq | hrest
    · subst heq
      simp only [scanA, hf]
      simp
    · simp only [scanA]
      exact List.mem_append_right _ (ih a hrest hf)

lemma mem_scanC (t : ObservationTable) (row : Word) (alph : List Symbol) :
    ∀ (cols : List Word) (c0 : Word) (x : Word × Word), c0 ∈ cols →
      x ∈ scanA t row c0 alph → x ∈ scanC t row alph cols := by
  intro cols
  induction cols with
  | nil => intro c0 x hc; cases hc
  | cons c rest ih =>
    intro c0 x hc hx
    rcases List.mem_cons.mp hc with heq | hrest
    · subst heq
      exact List.mem_append_left _ hx
    · exact List.mem_append_right _ (ih c0 x hrest hx)

lemma mem_scanR (t : ObservationTable) (alph : List Symbol) :
    ∀ (rows : List Word) (r0 : Word) (x : Word × Word), r0 ∈ rows →
      x ∈ scanC t r0 alph t.columns → x ∈ scanR t alph rows := by
  intro rows
  induction rows with
  | nil => intro r0 x hr; cases hr
  | cons r rest ih =>
    intro r0 x hr hx
    rcases List.mem_cons.mp hr with heq | hrest
    · subst heq
      exact List.mem_append_left _ hx
    · exact List.mem_append_right _ (ih r0 x hrest hx)

lemma scanA_nil (t : ObservationTable) (row col : Word) :
    ∀ (alph : List Symbol),
      (∀ a ∈ alph, t.is_filled row col = true ∧ t.is_filled (concat row [a]) col = true) →
      scanA t row col alph = [] := by
  intro alph
  induction alph with
  | nil => intro _; rfl
  | cons a rest ih =>
    intro h
    have ha := h a (List.mem_cons_self a rest)
    simp only [scanA, ha.1, ha.2, if_pos]
    exact ih (fun a2 ha2 => h a2 (List.mem_cons_of_mem a ha2))

lemma scanC_nil (t : ObservationTable) (row : Word) (alph : List Symbol) :
    ∀ (cols : List Word),
      (∀ c ∈ cols, ∀ a ∈ alph,
        t.is_filled row c = true ∧ t.is_filled (concat row [a]) c = true) →
      scanC t row alph cols = [] := by
  intro cols
  induction cols with
  | nil => intro _; rfl
  | cons c rest ih =>
    intro h
    simp only [scanC]
    rw [scanA_nil t row c alph (h c (List.mem_cons_self c rest)),
      ih (fun c2 hc2 => h c2 (List.mem_cons_of_mem c hc2))]
    rfl

lemma scanR_nil (t : ObservationTable) (alph : List Symbol) :
    ∀ (rows : List Word),
      (∀ r ∈ rows, ∀ c ∈ t.columns, ∀ a ∈ alph,
        t.is_filled r c = true ∧ t.is_filled (concat r [a]) c = true) →
      scanR t alph rows = [] := by
  intro rows
  induction rows with
  | nil => intro _; rfl
  | cons r rest ih =>
    intro h
    simp only [scanR]
    rw [scanC_nil t r alph t.columns (fun c hc a ha => h r (List.mem_cons_self r rest) c hc a ha),
      ih (fun r2 hr2 => h r2 (List.mem_cons_of_mem r hr2))]
    rfl

lemma fill_saturates (target : DFA) (t t1 : ObservationTable) (qs : List Word) :
    fill t target = some (t1, qs) → Saturated t1 target.alphabet := by
  intro h
  have hrows := fillGo_rows target (fillScan t target.alphabet) t [] t1 qs h
  intro r hr c hc a ha
  rw [hrows.1] at hr
  rw [hrows.2] at hc
  constructor
  · cases hb : t.is_filled r c with
    | true => exact fillGo_mono target _ _ _ _ _ r c h hb
    | false =>
      have hmem : (r, c) ∈ fillScan t target.alphabet := by
        refine mem_scanR t target.alphabet t.rows r (r, c) hr ?_
        refine mem_scanC t r target.alphabet t.columns c (r, c) hc ?_
        exact mem_scanA_fst t r c target.alphabet
          (by intro hnil; rw [hnil] at ha; cases ha) hb
      exact fillGo_fills target _ _ _ _ _ r c h hmem
  · cases hb : t.is_filled (concat r [a]) c with
    | true => exact fillGo_mono target _ _ _ _ _ _ c h hb
    | false =>
      have hmem : (concat r [a], c) ∈ fillScan t target.alphabet := by
        refine mem_scanR t target.alphabet t.rows r _ hr ?_
        refine mem_scanC t r target.alphabet t.columns c _ hc ?_
        exact mem_scanA_snd t r c target.alphabet a ha hb
      exact fillGo_fills target _ _ _ _ _ _ c h hmem

lemma saturated_fillScan_nil (t : ObservationTable) (alph : List Symbol) :
    Saturated t alph → fillScan t alph = [] := by
  intro hsat
  exact scanR_nil t alph t.rows (fun r hr c hc a ha => hsat r hr c hc a ha)

/-- Claim C6 (confirmed): a table already saturated by `fill` stays fixed
under a second `fill`: no membership query is issued (the query list is
empty) and no cell is touched (the table is returned unchanged, so no
existing cell's value changes and no cell is filled again). -/
theorem fill_idempotent :
    ∀ (t : ObservationTable) (target : DFA) (t1 : ObservationTable) (qs : List Word),
      fill t target = some (t1, qs) → fill t1 target = some (t1, []) := by
  intro t target t1 qs h
  have hsat := fill_saturates target t t1 qs h
  have hscan := saturated_fillScan_nil t1 target.alphabet hsat
  unfold fill
  rw [hscan]
  rfl

/-- Witness for `fill_idempotent`: filling the fresh table against `tgt6`
yields `t6` with two queries; refilling `t6` yields `t6` with none. -/
theorem fill_idempotent_witness :
    fill ObservationTable.new tgt6 = some (t6, [epsWord, ["a"]]) ∧
    fill t6 tgt6 = some (t6, []) :=
  ⟨rfl, fill_idempotent ObservationTable.new tgt6 t6 [epsWord, ["a"]] rfl⟩

lemma lookupLast_mem (k : State × Symbol) :
    ∀ (l : List ((State × Symbol) × State)) (v : State),
      lookupLast k l = some v → ∃ e ∈ l, e.1 = k ∧ e.2 = v := by
  intro l
  induction l with
  | nil => intro v h; cases h
  | cons e rest ih =>
    intro v h
    cases hr : lookupLast k rest with
    | some v2 =>
      simp only [lookupLast, hr, Option.some.injEq] at h
      obtain ⟨e2, he2, hk, hv⟩ := ih v2 hr
      exact ⟨e2, List.mem_cons_of_mem e he2, hk, hv.trans h⟩
    | none =>
      simp only [lookupLast, hr] at h
      by_cases hek : e.1 = k
      · rw [if_pos hek] at h
        exact ⟨e, List.mem_cons_self e rest, hek, Option.some.inj h⟩
      · rw [if_neg hek] at h
        exact Option.noConfusion h

lemma getTrans_mem_states (d : DFA) (hwf : WellFormedDFA d) (s : State) (a : Symbol)
    (v : State) (h : d.getTrans s a = some v) : v ∈ d.states := by
  obtain ⟨e, he, hk, hv⟩ := lookupLast_mem (s, a) d.transitions v h
  rw [← hv]
  exact hwf.2.1 e he

lemma runFrom_characterization (d : DFA) (hwf : WellFormedDFA d) :
    ∀ (w : List Symbol) (s : State), s ∈ d.states →
      ((∀ i ∈ w, i ∈ d.alphabet ∨ i = "ε") →
        runFrom d s w =
          some (RunResult.ok (d.finalStates.contains (simulate d s (filterEps w))))) ∧
      ((∃ i ∈ w, i ∉ d.alphabet ∧ i ≠ "ε") → ∃ m, runFrom d s w = some (RunResult.err m)) := by
  intro w
  induction w with
  | nil =>
    intro s _
    constructor
    · intro _; rfl
    · rintro ⟨i, hi, -⟩; cases hi
  | cons i rest ih =>
    intro s hs
    by_cases hi : i = "ε"
    · subst hi
      have hrec := ih s hs
      constructor
      · intro hall
        rw [runFrom_eps_head, filterEps, if_pos rfl]
        exact hrec.1 (fun j hj => hall j (List.mem_cons_of_mem _ hj))
      · rintro ⟨j, hj, hbad⟩
        rcases List.mem_cons.mp hj with heq | hjr
        · exact absurd heq hbad.2
        · rw [runFrom_eps_head]
          exact hrec.2 ⟨j, hjr, hbad⟩
    · by_cases hmem : i ∈ d.alphabet
      · have hc : ¬ (i ∉ d.alphabet ∧ i ≠ "ε") := by tauto
        have hsome := hwf.2.2 s hs i hmem hi
        cases htr : d.getTrans s i with
        | none => rw [htr] at hsome; cases hsome
        | some s2 =>
          have hs2 : s2 ∈ d.states := getTrans_mem_states d hwf s i s2 htr
          have hrec := ih s2 hs2
          constructor
          · intro hall
            have htail := hrec.1 (fun j hj => hall j (List.mem_cons_of_mem _ hj))
            simp only [runFrom, if_neg hc, if_neg hi, htr, filterEps, simulate,
              Option.getD_some]
            exact htail
          · rintro ⟨j, hj, hbad⟩
            rcases List.mem_cons.mp hj with heq | hjr
            · rw [heq] at hbad
              exact absurd hmem hbad.1
            · obtain ⟨m, hm⟩ := hrec.2 ⟨j, hjr, hbad⟩
              refine ⟨m, ?_⟩
              simp only [runFrom, if_neg hc, if_neg hi, htr]
              exact hm
      · have hc : i ∉ d.alphabet ∧ i ≠ "ε" := ⟨hmem, hi⟩
        constructor
        · intro hall
          rcases hall i (List.mem_cons_self i rest) with hin | heq
          · exact absurd hin hmem
          · exact absurd heq hi
        · intro _
          exact ⟨"Symbol " ++ i ++ " not in alphabet", by simp only [runFrom, if_pos hc]⟩

/-- Claim C3, counterexample: the claimed "if and only if" fails on the
literal symbol `"ε"`.  The word `["ε"]` contains a symbol outside the
acceptor's alphabet, yet `DFA::run` returns an acceptance result instead of
an unknown-symbol error. -/
theorem run_eps_unknown_symbol_counterexample :
    "ε" ∉ exC2.alphabet ∧ DFA.run exC2 ["ε"] = some (RunResult.ok false) :=
  ⟨by decide, by decide⟩

/-- Claim C3, amended (corrected): for a transition-total acceptor, `DFA::run`
fails with an unknown-symbol error iff the word contains a symbol that is
outside the alphabet and is not the literal skipped symbol `"ε"`; when every
symbol is in the alphabet or equal to `"ε"`, it returns the boolean
acceptance result of simulating the word (with `"ε"` occurrences skipped)
from the initial state. -/
theorem run_unknown_symbol_characterization :
    ∀ (d : DFA) (w : Word), WellFormedDFA d →
      ((∃ m, d.run w = some (RunResult.err m)) ↔ (∃ i ∈ w, i ∉ d.alphabet ∧ i ≠ "ε")) ∧
      ((∀ i ∈ w, i ∈ d.alphabet ∨ i = "ε") →
        d.run w = some (RunResult.ok (d.finalStates.contains
          (simulate d d.initState (filterEps w))))) := by
  intro d w hwf
  have hchar := runFrom_characterization d hwf w d.initState hwf.1
  refine ⟨⟨?_, ?_⟩, hchar.1⟩
  · rintro ⟨m, hm⟩
    by_cases hbad : ∃ i ∈ w, i ∉ d.alphabet ∧ i ≠ "ε"
    · exact hbad
    · exfalso
      have hall : ∀ i ∈ w, i ∈ d.alphabet ∨ i = "ε" := by
        intro i hi
        by_contra hni
        push_neg at hni
        exact hbad ⟨i, hi, hni⟩
      have hok := hchar.1 hall
      rw [DFA.run, hok] at hm
      exact RunResult.noConfusion (Option.some.inj hm)
  · intro hbad
    obtain ⟨m, hm⟩ := hchar.2 hbad
    exact ⟨m, hm⟩

/-- Witness for `run_unknown_symbol_characterization` on a concrete total
acceptor and word. -/
theorem run_unknown_symbol_characterization_witness :
    WellFormedDFA tgt6 ∧
    (((∃ m, tgt6.run ["a", "b"] = some (RunResult.err m)) ↔
        (∃ i ∈ (["a", "b"] : Word), i ∉ tgt6.alphabet ∧ i ≠ "ε")) ∧
      ((∀ i ∈ (["a", "b"] : Word), i ∈ tgt6.alphabet ∨ i = "ε") →
        tgt6.run ["a", "b"] = some (RunResult.ok (tgt6.finalStates.contains
          (simulate tgt6 tgt6.initState (filterEps ["a", "b"])))))) :=
  ⟨by decide, run_unknown_symbol_characterization tgt6 ["a", "b"] (by decide)⟩

lemma scanWords_append (t h : DFA) :
    ∀ (q l : List Word),
      scanWords t h (q ++ l) =
        if scanWords t h q = EQResult.equivalent then scanWords t h l
        else scanWords t h q := by
  intro q
  induction q with
  | nil => intro l; simp [scanWords]
  | cons w rest ih =>
    intro l
    simp only [List.cons_append]
    cases ht : t.run w with
    | none => simp [scanWords, ht]
    | some rt =>
      cases hh2 : h.run w with
      | none => simp [scanWords, ht, hh2]
      | some rh =>
        by_cases hrr : rt = rh
        · simp only [scanWords, ht, hh2, if_pos hrr]
          exact ih l
        · simp [scanWords, ht, hh2, hrr]

lemma eqLoop_stage (t h : DFA) (maxLen : Nat) :
    ∀ (q acc : List Word) (fuel : Nat),
      eqLoop t h maxLen (q.length + fuel) (q ++ acc) =
        if scanWords t h q = EQResult.equivalent then
          eqLoop t h maxLen fuel (acc ++ flatMapW (childWords t.alphabet maxLen) q)
        else scanWords t h q := by
  intro q
  induction q with
  | nil =>
    intro acc fuel
    simp [scanWords, flatMapW]
  | cons w rest ih =>
    intro acc fuel
    have hlen : (w :: rest).length + fuel = (rest.length + fuel) + 1 := by
      simp only [List.length_cons]; omega
    rw [hlen]
    simp only [List.cons_append]
    cases ht : t.run w with
    | none => simp [eqLoop, scanWords, ht]
    | some rt =>
      cases hh2 : h.run w with
      | none => simp [eqLoop, scanWords, ht, hh2]
      | some rh =>
        by_cases hrr : rt = rh
        · simp only [eqLoop, scanWords, ht, hh2, if_pos hrr]
          rw [List.append_assoc]
          rw [ih (acc ++ childWords t.alphabet maxLen w) fuel]
          simp only [flatMapW]
          rw [List.append_assoc]
        · simp [eqLoop, scanWords, ht, hh2, hrr]

lemma eqLoop_enum (t h : DFA) (maxLen : Nat) :
    ∀ (d : Nat) (q : List Word) (fuel : Nat),
      iterE (childWords t.alphabet maxLen) d q = [] →
      eqLoop t h maxLen ((enumFrom (childWords t.alphabet maxLen) d q).length + fuel) q =
        scanWords t h (enumFrom (childWords t.alphabet maxLen) d q) := by
  intro d
  induction d with
  | zero =>
    intro q fuel hq
    simp only [iterE] at hq
    subst hq
    simp [enumFrom, scanWords, eqLoop]
  | succ d2 ih =>
    intro q fuel hq
    simp only [iterE] at hq
    simp only [enumFrom, List.length_append]
    have harith :
        q.length +
            (enumFrom (childWords t.alphabet maxLen) d2
              (flatMapW (childWords t.alphabet maxLen) q)).length + fuel =
          q.length +
            ((enumFrom (childWords t.alphabet maxLen) d2
              (flatMapW (childWords t.alphabet maxLen) q)).length + fuel) := by
      omega
    rw [harith]
    have hstage := eqLoop_stage t h maxLen q []
      ((enumFrom (childWords t.alphabet maxLen) d2
        (flatMapW (childWords t.alphabet maxLen) q)).length + fuel)
    rw [List.append_nil] at hstage
    rw [List.nil_append] at hstage
    rw [hstage]
    rw [ih (flatMapW (childWords t.alphabet maxLen) q) fuel hq]
    rw [scanWords_append]

lemma iterE_out (c : Word → List Word) :
    ∀ (d : Nat) (q : List Word), iterE c (d + 1) q = flatMapW c (iterE c d q) := by
  intro d
  induction d with
  | zero => intro q; rfl
  | succ d2 ih =>
    intro q
    show iterE c (d2 + 1) (flatMapW c q) = flatMapW c (iterE c (d2 + 1) q)
    rw [ih (flatMapW c q)]
    rfl

lemma mem_flatMapW (f : Word → List Word) :
    ∀ (l : List Word) (x : Word), x ∈ flatMapW f l ↔ ∃ w ∈ l, x ∈ f w := by
  intro l
  induction l with
  | nil => intro x; simp [flatMapW]
  | cons w rest ih =>
    intro x
    simp only [flatMapW, List.mem_append, ih, List.mem_cons]
    constructor
    · rintro (hx | ⟨w2, hw2, hx⟩)
      · exact ⟨w, Or.inl rfl, hx⟩
      · exact ⟨w2, Or.inr hw2, hx⟩
    · rintro ⟨w2, hw2 | hw2, hx⟩
      · rw [hw2] at hx
        exact Or.inl hx
      · exact Or.inr ⟨w2, hw2, hx⟩

lemma flatMapW_nil_of (f : Word → List Word) :
    ∀ (l : List Word), (∀ w ∈ l, f w = []) → flatMapW f l = [] := by
  intro l
  induction l with
  | nil => intro _; rfl
  | cons w rest ih =>
    intro hw
    simp only [flatMapW, hw w (List.mem_cons_self w rest), List.nil_append]
    exact ih (fun w2 h2 => hw w2 (List.mem_cons_of_mem w h2))

lemma concat_single_ne (w : Word) (a : Symbol) (hane : a ≠ "ε") :
    concat w [a] = if w = epsWord then [a] else w ++ [a] := by
  have hb : ([a] : Word) ≠ epsWord := by simp [epsWord, hane]
  by_cases hw : w = epsWord
  · simp [concat, hw, hb]
  · simp [concat, hw, hb]

lemma level_words (alph : List Symbol) (maxLen : Nat) (halph : "ε" ∉ alph) :
    ∀ (k : Nat), ∀ w ∈ iterE (childWords alph maxLen) (k + 1) [epsWord],
      w.length = k + 1 ∧ "ε" ∉ w := by
  intro k
  induction k with
  | zero =>
    intro w hw
    rw [iterE_out] at hw
    simp only [iterE, flatMapW, List.append_nil] at hw
    simp only [childWords] at hw
    by_cases hlen : (epsWord : Word).length < maxLen
    · rw [if_pos hlen] at hw
      obtain ⟨a, ha, rfl⟩ := List.mem_map.mp hw
      have hane : a ≠ "ε" := fun hcon => halph (hcon ▸ ha)
      rw [concat_single_ne epsWord a hane, if_pos rfl]
      refine ⟨rfl, ?_⟩
      simp [hane, Ne.symm hane]
    · rw [if_neg hlen] at hw
      cases hw
  | succ k2 ih =>
    intro w hw
    rw [iterE_out] at hw
    rw [mem_flatMapW] at hw
    obtain ⟨w0, hw0, hwc⟩ := hw
    obtain ⟨hlen0, heps0⟩ := ih w0 hw0
    simp only [childWords] at hwc
    by_cases hl : w0.length < maxLen
    · rw [if_pos hl] at hwc
      obtain ⟨a, ha, rfl⟩ := List.mem_map.mp hwc
      have hane : a ≠ "ε" := fun hcon => halph (hcon ▸ ha)
      have hw0ne : w0 ≠ epsWord := by
        intro hcon
        rw [hcon] at heps0
        exact heps0 (by simp [epsWord])
      rw [concat_single_ne w0 a hane, if_neg hw0ne]
      constructor
      · simp only [List.length_append, List.length_singleton, hlen0]
      · intro hcon
        rcases List.mem_append.mp hcon with hm | hm
        · exact heps0 hm
        · simp only [List.mem_singleton] at hm
          exact hane hm.symm
    · rw [if_neg hl] at hwc
      cases hwc

lemma iterE_level_empty (alph : List Symbol) (maxLen : Nat) (halph : "ε" ∉ alph)
    (hml : 1 ≤ maxLen) :
    iterE (childWords alph maxLen) (maxLen + 1) [epsWord] = [] := by
  obtain ⟨m, rfl⟩ : ∃ m, maxLen = m + 1 := ⟨maxLen - 1, by omega⟩
  rw [iterE_out]
  apply flatMapW_nil_of
  intro w hw
  have hlw := level_words alph (m + 1) halph m w hw
  simp only [childWords, hlw.1]
  rw [if_neg (by omega)]

lemma eqLoop_tgtC4_diverges :
    ∀ (fuel : Nat), eqLoop tgtC4 tgtC4 2 fuel [epsWord] = EQResult.fuelOut := by
  intro fuel
  induction fuel with
  | zero => rfl
  | succ f ih =>
    rw [show eqLoop tgtC4 tgtC4 2 (f + 1) [epsWord] =
      eqLoop tgtC4 tgtC4 2 f [epsWord] from rfl]
    exact ih

/-- Claim C4, counterexample: with the literal sentinel symbol `"ε"` in the
target's alphabet, the claimed bounded enumeration never exhausts: comparing
a target against itself (so no word differs, and the claim demands an
equivalence report) leaves `equivalence_query` still running after 1000 loop
iterations, far beyond the claimed enumeration of words of length 0 up to
`states + 1`, which for this target holds 4 entries and finds no
difference. -/
theorem equivalence_query_eps_alphabet_counterexample :
    scanWords tgtC4 tgtC4 (bfsEnumeration tgtC4) = EQResult.equivalent ∧
    equivalence_query 1000 tgtC4 tgtC4 = EQResult.fuelOut :=
  ⟨by decide, eqLoop_tgtC4_diverges 1000⟩

/-- Claim C4, amended (corrected): provided the literal sentinel symbol `"ε"`
is not in the target's alphabet, `equivalence_query` (given at least as much
fuel as the enumeration is long) refines the spec's breadth-first
enumeration: it scans, in increasing length, the empty word and all words of
length up to `states + 1`, each frontier word extended by every alphabet
symbol in turn, and returns the first word whose two run results differ (a
panic in either run propagating), or reports equivalence when the bound is
exhausted.  If `"ε"` is an alphabet symbol the loop never exhausts its
bound. -/
theorem equivalence_query_bfs_refinement :
    ∀ (t h : DFA) (fuel : Nat), "ε" ∉ t.alphabet →
      (bfsEnumeration t).length ≤ fuel →
      equivalence_query fuel t h = scanWords t h (bfsEnumeration t) := by
  intro t h fuel halph hfuel
  obtain ⟨k, hk⟩ := Nat.le.dest hfuel
  have hempty := iterE_level_empty t.alphabet (t.states.length + 1) halph (by omega)
  have hmain := eqLoop_enum t h (t.states.length + 1) (t.states.length + 2) [epsWord] k hempty
  rw [← hk]
  exact hmain

/-- Witness for `equivalence_query_bfs_refinement` on a concrete target. -/
theorem equivalence_query_bfs_refinement_witness :
    "ε" ∉ tgt6.alphabet ∧ (bfsEnumeration tgt6).length ≤ 10 ∧
    equivalence_query 10 tgt6 tgt6 = scanWords tgt6 tgt6 (bfsEnumeration tgt6) :=
  ⟨by decide, by decide,
    equivalence_query_bfs_refinement tgt6 tgt6 10 (by decide) (by decide)⟩

lemma getValueAux_some (t : ObservationTable) (w : Word) :
    ∀ (L : List Word), (∀ c ∈ L, (t.cells (w, c)).isSome = true) →
      ∃ v, getValueAux t w L = some v := by
  intro L
  induction L with
  | nil => intro _; exact ⟨[], rfl⟩
  | cons c rest ih =>
    intro h
    have hc := h c (List.mem_cons_self c rest)
    cases hcc : t.cells (w, c) with
    | none => rw [hcc] at hc; cases hc
    | some b =>
      obtain ⟨v, hv⟩ := ih (fun c2 h2 => h c2 (List.mem_cons_of_mem c h2))
      refine ⟨b :: v, ?_⟩
      simp only [getValueAux, hcc, hv, Option.map_some']

lemma get_value_some (t : ObservationTable) (w : Word)
    (h : ∀ c ∈ t.columns, (t.cells (w, c)).isSome = true) :
    t.get_value w = some (rowSig t w) := by
  obtain ⟨v, hv⟩ := getValueAux_some t w t.columns h
  have hgv : t.get_value w = some v := hv
  rw [hgv, rowSig, hgv]
  rfl

lemma get_value_as_state_some (t : ObservationTable) (w : Word)
    (h : t.get_value w = some (rowSig t w)) :
    t.get_value_as_state w = some (rowState t w) := by
  rw [ObservationTable.get_value_as_state, h]
  rfl

lemma vecbool_to_state_inj (v1 v2 : List Bool)
    (h : vecbool_to_state v1 = vecbool_to_state v2) : v1 = v2 := by
  rw [vecbool_to_state, vecbool_to_state] at h
  have hd : v1.map (fun b => if b then '1' else '0') =
      v2.map (fun b => if b then '1' else '0') := congrArg String.data h
  have hinj : Function.Injective (fun b : Bool => if b then '1' else '0') := by
    intro b1 b2 hb
    cases b1 <;> cases b2 <;> simp_all
  exact List.map_injective_iff.mpr hinj hd

lemma getStatesAux_eq (t : ObservationTable) :
    ∀ (L : List Word), (∀ p ∈ L, t.get_value p = some (rowSig t p)) →
      getStatesAux t L = some (L.map (rowState t)) := by
  intro L
  induction L with
  | nil => intro _; rfl
  | cons p rest ih =>
    intro h
    have hp := h p (List.mem_cons_self p rest)
    simp only [getStatesAux, hp]
    rw [ih (fun p2 h2 => h p2 (List.mem_cons_of_mem p h2))]
    rfl

lemma buildTransA_eq (t : ObservationTable) (pre : Word)
    (hpre : t.get_value_as_state pre = some (rowState t pre)) :
    ∀ (A : List Symbol),
      (∀ a ∈ A, t.get_value_as_state (concat pre [a]) =
        some (rowState t (concat pre [a]))) →
      buildTransA t pre A =
        some (A.map (fun a => ((rowState t pre, a), rowState t (concat pre [a])))) := by
  intro A
  induction A with
  | nil => intro _; rfl
  | cons a rest ih =>
    intro h
    have ha := h a (List.mem_cons_self a rest)
    simp only [buildTransA, hpre, ha, ih (fun a2 h2 => h a2 (List.mem_cons_of_mem a h2))]
    rfl

lemma buildTrans_eq (t : ObservationTable) (alph : List Symbol) :
    ∀ (L : List Word),
      (∀ r ∈ L, t.get_value_as_state r = some (rowState t r)) →
      (∀ r ∈ L, ∀ a ∈ alph, t.get_value_as_state (concat r [a]) =
        some (rowState t (concat r [a]))) →
      buildTrans t alph L = some (transOf t alph L) := by
  intro L
  induction L with
  | nil => intro _ _; rfl
  | cons r rest ih =>
    intro h1 h2
    have hA := buildTransA_eq t r (h1 r (List.mem_cons_self r rest)) alph
      (fun a ha => h2 r (List.mem_cons_self r rest) a ha)
    simp only [buildTrans, hA,
      ih (fun r2 hr2 => h1 r2 (List.mem_cons_of_mem r hr2))
        (fun r2 hr2 a ha => h2 r2 (List.mem_cons_of_mem r hr2) a ha)]
    rfl

lemma mem_transOf (t : ObservationTable) (alph : List Symbol) :
    ∀ (L : List Word) (e : (State × Symbol) × State),
      e ∈ transOf t alph L ↔
        ∃ r ∈ L, ∃ a ∈ alph,
          ((rowState t r, a), rowState t (concat r [a])) = e := by
  intro L
  induction L with
  | nil => intro e; simp [transOf]
  | cons r rest ih =>
    intro e
    simp only [transOf, List.mem_append, List.mem_map, ih, List.mem_cons]
    constructor
    · rintro (⟨a, ha, he⟩ | ⟨r2, hr2, a, ha, he⟩)
      · exact ⟨r, Or.inl rfl, a, ha, he⟩
      · exact ⟨r2, Or.inr hr2, a, ha, he⟩
    · rintro ⟨r2, hr2 | hr2, a, ha, he⟩
      · rw [hr2] at he
        exact Or.inl ⟨a, ha, he⟩
      · exact Or.inr ⟨r2, hr2, a, ha, he⟩

lemma lookupLast_none (k : State × Symbol) :
    ∀ (l : List ((State × Symbol) × State)),
      lookupLast k l = none → ∀ e ∈ l, e.1 ≠ k := by
  intro l
  induction l with
  | nil => intro _ e he; cases he
  | cons e0 rest ih =>
    intro h e he
    cases hr : lookupLast k rest with
    | some v =>
      simp only [lookupLast, hr] at h
      exact Option.noConfusion h
    | none =>
      simp only [lookupLast, hr] at h
      rcases List.mem_cons.mp he with heq | hrest
      · subst heq
        by_cases hek : e.1 = k
        · rw [if_pos hek] at h
          exact Option.noConfusion h
        · exact hek
      · exact ih hr e hrest

lemma lookupLast_unique (k : State × Symbol) (v : State) :
    ∀ (l : List ((State × Symbol) × State)),
      (∃ e ∈ l, e.1 = k) → (∀ e ∈ l, e.1 = k → e.2 = v) →
      lookupLast k l = some v := by
  intro l
  induction l with
  | nil => rintro ⟨e, he, -⟩; cases he
  | cons e0 rest ih =>
    intro hex hall
    cases hr : lookupLast k rest with
    | some v2 =>
      obtain ⟨e2, he2, hk2, hv2⟩ := lookupLast_mem k rest v2 hr
      have hvv : v2 = v := by
        rw [← hv2]
        exact hall e2 (List.mem_cons_of_mem e0 he2) hk2
      simp only [lookupLast, hr, hvv]
    | none =>
      rcases hex with ⟨e, he, hek⟩
      rcases List.mem_cons.mp he with heq | hrest
      · subst heq
        simp only [lookupLast, hr, if_pos hek]
        rw [hall e (List.mem_cons_self e rest) hek]
      · exact absurd hek (lookupLast_none k rest hr e hrest)

lemma get_value_eq_of_rowState (t : ObservationTable) (w1 w2 : Word)
    (h1 : t.get_value w1 = some (rowSig t w1)) (h2 : t.get_value w2 = some (rowSig t w2))
    (h : rowState t w1 = rowState t w2) : t.get_value w1 = t.get_value w2 := by
  rw [h1, h2, vecbool_to_state_inj (rowSig t w1) (rowSig t w2) h]

lemma getValueAux_congr (t : ObservationTable) (w1 w2 : Word) :
    ∀ (L : List Word), (∀ c ∈ L, t.cells (w1, c) = t.cells (w2, c)) →
      getValueAux t w1 L = getValueAux t w2 L := by
  intro L
  induction L with
  | nil => intro _; rfl
  | cons c rest ih =>
    intro h
    simp only [getValueAux, h c (List.mem_cons_self c rest),
      ih (fun c2 h2 => h c2 (List.mem_cons_of_mem c h2))]

lemma mem_finalsFilter :
    ∀ (L : List State) (s : State),
      s ∈ finalsFilter L ↔ s ∈ L ∧ s.data.head? = some '1' := by
  intro L
  induction L with
  | nil => intro s; simp [finalsFilter]
  | cons st rest ih =>
    intro s
    by_cases hst : st.data.head? = some '1'
    · simp only [finalsFilter, if_pos hst, List.mem_cons, ih]
      constructor
      · rintro (rfl | ⟨hm, hh⟩)
        · exact ⟨Or.inl rfl, hst⟩
        · exact ⟨Or.inr hm, hh⟩
      · rintro ⟨rfl | hm, hh⟩
        · exact Or.inl rfl
        · exact Or.inr ⟨hm, hh⟩
    · simp only [finalsFilter, if_neg hst, ih, List.mem_cons]
      constructor
      · rintro ⟨hm, hh⟩
        exact ⟨Or.inr hm, hh⟩
      · rintro ⟨rfl | hm, hh⟩
        · exact absurd hh hst
        · exact ⟨hm, hh⟩

lemma rowState_head_one (t : ObservationTable) (r : Word) :
    (rowState t r).data.head? = some '1' ↔ (rowSig t r).head? = some true := by
  rw [rowState, vecbool_to_state]
  show ((rowSig t r).map (fun b => if b then '1' else '0')).head? = some '1' ↔ _
  cases hsig : rowSig t r with
  | nil => simp
  | cons b rest => cases b <;> simp

lemma mem_new_states (tl : List ((State × Symbol) × State)) (init : State)
    (finals : List State) (s : State) :
    s ∈ (DFA.new tl init finals).states ↔
      (∃ e ∈ tl, e.1.1 = s) ∨
      (∃ k, (∃ e ∈ tl, e.1 = k) ∧ lookupLast k tl = some s) ∨ s = init := by
  show s ∈ (((tl.map (fun e => e.1)).dedup.map (fun k => k.1)) ++
      ((tl.map (fun e => e.1)).dedup.filterMap (fun k => lookupLast k tl)) ++ [init]).dedup ↔ _
  rw [List.mem_dedup]
  simp only [List.mem_append, List.mem_map, List.mem_filterMap, List.mem_dedup,
    List.mem_singleton]
  constructor
  · rintro ((⟨k, ⟨e, he, hek⟩, hks⟩ | ⟨k, ⟨e, he, hek⟩, hlk⟩) | hs)
    · refine Or.inl ⟨e, he, ?_⟩
      rw [hek]
      exact hks
    · exact Or.inr (Or.inl ⟨k, ⟨e, he, hek⟩, hlk⟩)
    · exact Or.inr (Or.inr hs)
  · rintro (⟨e, he, hes⟩ | ⟨k, hex, hlk⟩ | hs)
    · exact Or.inl (Or.inl ⟨e.1, ⟨e, he, rfl⟩, hes⟩)
    · exact Or.inl (Or.inr ⟨k, hex, hlk⟩)
    · exact Or.inr hs

/-- Claim C5, counterexample: with an empty alphabet, a filled, (vacuously)
closed and consistent table with two distinct-signature rows yields an
acceptor whose state set is only the initial state — the canonical identifier
"1" of the second row is missing from the built acceptor's states. -/
theorem construct_automaton_empty_alphabet_counterexample :
    Filled exT5b [] ∧ TClosed exT5b [] ∧ TConsistent exT5b [] ∧
    epsWord ∈ exT5b.rows ∧ exT5b.columns.head? = some epsWord ∧
    ["a"] ∈ exT5b.rows ∧ rowState exT5b ["a"] = "1" ∧
    (construct_automaton exT5b []).map DFA.states = some ["0"] ∧
    "1" ∉ (["0"] : List State) := by
  refine ⟨by decide, by decide, by decide, by decide, by decide, by decide, by decide,
    by decide, by decide⟩

/-- Claim C5, amended (corrected): whenever the observation table is closed
and consistent with all needed cells filled, the empty word is a row, the
first column is the empty word, and the alphabet is nonempty, then
`construct_automaton` succeeds and builds an acceptor whose states are
exactly the canonical identifiers of the current rows, whose initial state is
the canonical identifier of the empty-word row, whose transition from
state(r) on each alphabet symbol `a` is state(r·a), and in which a state is
accepting iff its signature's value at the distinguished first (empty-word)
column is true.  (With an empty alphabet the built acceptor keeps only the
initial state.) -/
theorem construct_automaton_spec :
    ∀ (t : ObservationTable) (alph : List Symbol),
      Filled t alph → TClosed t alph → TConsistent t alph →
      epsWord ∈ t.rows → t.columns.head? = some epsWord → alph ≠ [] →
      ∃ dfa, construct_automaton t alph = some dfa ∧
        (∀ s, s ∈ dfa.states ↔ ∃ r ∈ t.rows, rowState t r = s) ∧
        dfa.initState = rowState t epsWord ∧
        (∀ r ∈ t.rows, ∀ a ∈ alph,
          dfa.getTrans (rowState t r) a = some (rowState t (concat r [a]))) ∧
        (∀ r ∈ t.rows,
          (rowState t r ∈ dfa.finalStates ↔ (rowSig t r).head? = some true)) := by
  intro t alph hF hC hK heps hcol halph
  have hrowval : ∀ r ∈ t.rows, t.get_value r = some (rowSig t r) := fun r hr =>
    get_value_some t r (fun c hc => (hF r hr c hc).1)
  have hextval : ∀ r ∈ t.rows, ∀ a ∈ alph,
      t.get_value (concat r [a]) = some (rowSig t (concat r [a])) :=
    fun r hr a ha => get_value_some t _ (fun c hc => (hF r hr c hc).2 a ha)
  have hrowst : ∀ r ∈ t.rows, t.get_value_as_state r = some (rowState t r) := fun r hr =>
    get_value_as_state_some t r (hrowval r hr)
  have hextst : ∀ r ∈ t.rows, ∀ a ∈ alph,
      t.get_value_as_state (concat r [a]) = some (rowState t (concat r [a])) :=
    fun r hr a ha => get_value_as_state_some t _ (hextval r hr a ha)
  have hsts : t.get_states = some (t.rows.map (rowState t)) := getStatesAux_eq t t.rows hrowval
  have hinit : t.get_value_as_state epsWord = some (rowState t epsWord) := hrowst epsWord heps
  have htl : buildTrans t alph t.rows = some (transOf t alph t.rows) :=
    buildTrans_eq t alph t.rows hrowst hextst
  refine ⟨DFA.new (transOf t alph t.rows) (rowState t epsWord)
    (finalsFilter (t.rows.map (rowState t))), ?_, ?_, rfl, ?_, ?_⟩
  · simp only [construct_automaton, hsts, hinit, htl]
    rw [if_pos hcol]
  · intro s
    rw [mem_new_states]
    constructor
    · rintro (⟨e, he, hes⟩ | ⟨k, ⟨e, he, hek⟩, hlk⟩ | hs)
      · rw [mem_transOf] at he
        obtain ⟨r, hr, a, ha, hee⟩ := he
        refine ⟨r, hr, ?_⟩
        rw [← hee] at hes
        exact hes
      · obtain ⟨e2, he2, hk2, hv2⟩ := lookupLast_mem k _ s hlk
        rw [mem_transOf] at he2
        obtain ⟨r, hr, a, ha, hee⟩ := he2
        obtain ⟨r2, hr2, hvv⟩ := hC r hr a ha
        refine ⟨r2, hr2, ?_⟩
        have hst : rowState t (concat r [a]) = rowState t r2 := by
          simp only [rowState, rowSig, hvv]
        rw [← hv2, ← hee]
        exact hst.symm
      · exact ⟨epsWord, heps, hs.symm⟩
    · rintro ⟨r, hr, hrs⟩
      obtain ⟨a0, ha0⟩ : ∃ a, a ∈ alph := by
        cases alph with
        | nil => exact absurd rfl halph
        | cons a0 rest => exact ⟨a0, List.mem_cons_self a0 rest⟩
      refine Or.inl ⟨((rowState t r, a0), rowState t (concat r [a0])), ?_, hrs⟩
      rw [mem_transOf]
      exact ⟨r, hr, a0, ha0, rfl⟩
  · intro r hr a ha
    show lookupLast (rowState t r, a) (transOf t alph t.rows) =
      some (rowState t (concat r [a]))
    apply lookupLast_unique
    · exact ⟨((rowState t r, a), rowState t (concat r [a])),
        (mem_transOf t alph t.rows _).mpr ⟨r, hr, a, ha, rfl⟩, rfl⟩
    · intro e he hek
      rw [mem_transOf] at he
      obtain ⟨r2, hr2, a2, ha2, hee⟩ := he
      rw [← hee] at hek ⊢
      have hk2 : rowState t r2 = rowState t r ∧ a2 = a := Prod.mk.inj hek
      have hvv : t.get_value r2 = t.get_value r :=
        get_value_eq_of_rowState t r2 r (hrowval r2 hr2) (hrowval r hr) hk2.1
      have hcells := hK r2 hr2 r hr hvv a ha
      have hgv : t.get_value (concat r2 [a]) = t.get_value (concat r [a]) :=
        getValueAux_congr t _ _ t.columns hcells
      show rowState t (concat r2 [a2]) = rowState t (concat r [a])
      rw [hk2.2]
      simp only [rowState, rowSig, hgv]
  · intro r hr
    show rowState t r ∈ (finalsFilter (t.rows.map (rowState t))).dedup ↔ _
    rw [List.mem_dedup, mem_finalsFilter]
    constructor
    · rintro ⟨-, hh⟩
      exact (rowState_head_one t r).mp hh
    · intro hh
      exact ⟨List.mem_map.mpr ⟨r, hr, rfl⟩, (rowState_head_one t r).mpr hh⟩

/-- Witness for `construct_automaton_spec` on a concrete closed, consistent,
filled table over the alphabet {a}. -/
theorem construct_automaton_spec_witness :
    (Filled t6 ["a"] ∧ TClosed t6 ["a"] ∧ TConsistent t6 ["a"] ∧ epsWord ∈ t6.rows ∧
      t6.columns.head? = some epsWord ∧ (["a"] : List Symbol) ≠ []) ∧
    (∃ dfa, construct_automaton t6 ["a"] = some dfa ∧
      (∀ s, s ∈ dfa.states ↔ ∃ r ∈ t6.rows, rowState t6 r = s) ∧
      dfa.initState = rowState t6 epsWord ∧
      (∀ r ∈ t6.rows, ∀ a ∈ (["a"] : List Symbol),
        dfa.getTrans (rowState t6 r) a = some (rowState t6 (concat r [a]))) ∧
      (∀ r ∈ t6.rows,
        (rowState t6 r ∈ dfa.finalStates ↔ (rowSig t6 r).head? = some true))) :=
  ⟨⟨by decide, by decide, by decide, by decide, by decide, by decide⟩,
    construct_automaton_spec t6 ["a"] (by decide) (by decide) (by decide) (by decide)
      (by decide) (by decide)⟩

end LStar
